import Mathlib

/-!
Verification development for the `spdx-checker` repository.

The repository ships a single fixture, `src/examples/example.c`, whose header
comment carries an SPDX license declaration.  Its specification additionally
describes the SPDX license-header scanner that consumes such fixtures.  This
file embeds the fixture (line by line, from the source) and models the scanner
from the specification, then proves the spec's claims about both.
-/

namespace Spdx

/-! ## The fixture `src/examples/example.c`, embedded verbatim

Each list element is one text line of the file, in order.  The file ends
without a trailing newline after the final `}` line, so it consists of 27
newline-terminated lines plus one unterminated final line. -/

def exampleLines : List String :=
  [ "/* SPDX-License-Identifier: MIT"
  , " * Copyright (c) 2023 Example Corporation"
  , " * Example Project"
  , " */"
  , ""
  , "/**"
  , " * Example C file demonstrating proper SPDX license header."
  , " * This file shows how SPDX license declarations should be formatted"
  , " * in C source code files."
  , " */"
  , ""
  , "#include <stdio.h>"
  , "#include <stdlib.h>"
  , ""
  , "/**"
  , " * Main function demonstrating the SPDX scanner example."
  , " * @return Exit code (0 for success)"
  , " */"
  , "int main(void) \x7b"
  , "    printf(\"This is an example C file with proper SPDX license header.\\n\");"
  , "    printf(\"The SPDX scanner will recognize this as a valid license declaration.\\n\");"
  , ""
  , "    // Example functionality"
  , "    const char* message = \"Hello, SPDX!\";"
  , "    printf(\"Message: %s\\n\", message);"
  , ""
  , "    return EXIT_SUCCESS;"
  , "\x7d" ]

/-- The fixture's lines as character lists (the scanner model works on
character lists so that every operation is plain structural recursion). -/
def exampleLinesC : List (List Char) := exampleLines.map String.toList

/-- The raw character content of the fixture: the lines joined by a newline
character, with no trailing newline (the file's final line is unterminated). -/
def joinLines : List (List Char) → List Char
  | [] => []
  | [l] => l
  | l :: ls => l ++ '\n' :: joinLines ls

def exampleRaw : List Char := joinLines exampleLinesC

/-- The number of newline characters in a character sequence.  For a file this
is its line count in the POSIX sense (`wc -l`): a line is a newline-terminated
record, and a final unterminated record is not a complete line. -/
def newlineCount (l : List Char) : Nat := (l.filter (fun c => c = '\n')).length

/-- The repository's source tree: path and raw content of each source file.
`src/examples/example.c` is the only file. -/
def repoFiles : List (String × List Char) :=
  [("src/examples/example.c", exampleRaw)]

/-! ## The execution of the fixture's `main`

`main` is three `printf` calls on string literals (one via a `%s` format with
the constant `message`) followed by `return EXIT_SUCCESS`.  Execution is
modelled as a function on an explicit world state: `stdin` (unread input),
`stdout` (lines written so far), and `extState` (any external mutable state,
e.g. the file system), returning the final world and the process exit code. -/

structure World where
  stdin : List String
  stdout : List String
  extState : List (String × String)
deriving DecidableEq

/-- `EXIT_SUCCESS` from `<stdlib.h>`. -/
def exitSuccess : Int := 0

/-- `const char* message = "Hello, SPDX!";` from `main`. -/
def message : String := "Hello, SPDX!"

/-- One `printf` of a full line: appends the line to `stdout` and changes
nothing else. -/
def printLine (s : String) (w : World) : World :=
  { w with stdout := w.stdout ++ [s] }

/-- The body of `main` from `src/examples/example.c`: the three `printf`
calls in program order, then the returned exit code. -/
def cMain (w : World) : World × Int :=
  let w1 := printLine "This is an example C file with proper SPDX license header." w
  let w2 := printLine "The SPDX scanner will recognize this as a valid license declaration." w1
  let w3 := printLine ("Message: " ++ message) w2
  (w3, exitSuccess)

/-- The fixed sequence of lines `main` writes to standard output. -/
def exampleOutput : List String :=
  [ "This is an example C file with proper SPDX license header."
  , "The SPDX scanner will recognize this as a valid license declaration."
  , "Message: " ++ message ]

/-! ## The SPDX scanner

Modelled from the spec: the repository contains only the fixture, and the
specification (§2–§7) defines the scanner that consumes it — the
Comment-Dialect Tokenizer, SPDX Declaration Parser, File Classifier, Scan
Orchestrator and Result Reporter.  The definitions below follow the spec's
words; none of this code exists under `src/`. -/

/-- Diagnostic severity (spec §3, Diagnostic). -/
inductive Severity where
  | error
  | warning
deriving DecidableEq

/-- The error taxonomy of spec §7 that is recorded per file as diagnostics. -/
inductive DiagKind where
  | MalformedComment
  | ConflictingDeclaration
  | UnknownIdentifier
deriving DecidableEq

/-- Modelled from the spec: a per-file Diagnostic (severity, kind and line
number; the message of §3 is determined by the kind). -/
structure Diag where
  kind : DiagKind
  severity : Severity
  line : Nat
deriving DecidableEq

/-- SPDX tag kinds (spec §3, SpdxDeclaration). -/
inductive TagKind where
  | licenseIdentifier
  | copyright
deriving DecidableEq

/-- Modelled from the spec: an SpdxDeclaration — tag kind, raw value, the
`parsed` validity flag, and the source line number. -/
structure Decl where
  tag : TagKind
  value : List Char
  parsed : Bool
  line : Nat
deriving DecidableEq

/-- Per-file compliance verdict (spec §3). -/
inductive Verdict where
  | compliant
  | missing
  | invalid
deriving DecidableEq

/-- Overall project verdict (spec §4.4). -/
inductive Overall where
  | pass
  | fail
deriving DecidableEq

/-- Modelled from the spec: a FileScanResult — file path, declarations,
diagnostics and verdict. -/
structure FileScanResult where
  path : List Char
  decls : List Decl
  diags : List Diag
  verdict : Verdict
deriving DecidableEq

/-- Modelled from the spec: a ScanReport — the ordered per-file results and
the overall verdict. -/
structure ScanReport where
  files : List FileScanResult
  overall : Overall
deriving DecidableEq

/-- Modelled from the spec: a comment dialect descriptor — a line-comment
marker and a block-comment delimiter pair (§4.1; the C-like dialect used by
the fixture has the single pair `/*` `*/`). -/
structure Dialect where
  lineMark : List Char
  blockOpen : List Char
  blockClose : List Char
deriving DecidableEq

/-- The C dialect: `//` line comments and `/*` `*/` block comments. -/
def cDialect : Dialect :=
  { lineMark := "//".toList, blockOpen := "/*".toList, blockClose := "*/".toList }

/-- Modelled from the spec: scanner configuration — the known
license-identifier set, the known exception-identifier set, the strict
policy flag, the extension→dialect mapping and the excluded paths (§4.3,
§6; glob matching is abstracted to the set of matched paths). -/
structure Config where
  known : List (List Char)
  knownExc : List (List Char)
  strict : Bool
  extMap : List (List Char × Dialect)
  excludes : List (List Char)

/-! ### Character-list helpers -/

def isSpaceC (c : Char) : Bool := c = ' ' || c = '\t'

def trimL : List Char → List Char
  | [] => []
  | c :: cs => if isSpaceC c then trimL cs else c :: cs

def trimR (l : List Char) : List Char := (trimL l.reverse).reverse

def trimC (l : List Char) : List Char := trimR (trimL l)

/-- Searches `l` for the first occurrence of the pattern `p` and returns the
suffix of `l` that follows it, or `none` when `p` does not occur. -/
def dropThrough (p : List Char) : List Char → Option (List Char)
  | [] => if p.isPrefixOf ([] : List Char) then some [] else none
  | c :: cs =>
    if p.isPrefixOf (c :: cs) then some (List.drop p.length (c :: cs))
    else dropThrough p cs

/-- Whether the pattern `p` occurs anywhere in `l`. -/
def containsSub (p l : List Char) : Bool := (dropThrough p l).isSome

/-! ### Comment-Dialect Tokenizer (spec §4.1)

Block openers are honored only at line start after whitespace; line-comment
markers are honored anywhere (the spec's conservative heuristic).  A block
comment stops at the first closing delimiter.  A block opener with no closer
before end-of-file yields the partial block and reports the opener's line
number as malformed (a `MalformedComment` diagnostic, not a fatal abort). -/

/-- One comment block: the numbered source lines it covers. -/
structure CommentBlock where
  isBlock : Bool
  text : List (Nat × List Char)
deriving DecidableEq

/-- Tokenizer loop.  `n` is the current (1-based) line number; `acc`, when
set, holds the opener line number and the accumulated lines (reversed) of an
open block comment.  Returns the comment blocks in source order and the
opener line of an unterminated block comment, if any. -/
def tokGo (d : Dialect) : Nat → Option (Nat × List (Nat × List Char)) →
    List (List Char) → List CommentBlock × Option Nat
  | _, none, [] => ([], none)
  | _, some (s, acc), [] => ([{ isBlock := true, text := acc.reverse }], some s)
  | n, some (s, acc), l :: rest =>
    if containsSub d.blockClose l then
      let (bs, m) := tokGo d (n + 1) none rest
      ({ isBlock := true, text := (acc.reverse ++ [(n, l)]) } :: bs, m)
    else tokGo d (n + 1) (some (s, (n, l) :: acc)) rest
  | n, none, l :: rest =>
    if d.blockOpen.isPrefixOf (trimL l) then
      match dropThrough d.blockOpen l with
      | some afterOpen =>
        if containsSub d.blockClose afterOpen then
          let (bs, m) := tokGo d (n + 1) none rest
          ({ isBlock := true, text := [(n, l)] } :: bs, m)
        else tokGo d (n + 1) (some (n, [(n, l)])) rest
      | none => tokGo d (n + 1) none rest
    else
      match dropThrough d.lineMark l with
      | some afterMark =>
        let (bs, m) := tokGo d (n + 1) none rest
        ({ isBlock := false, text := [(n, afterMark)] } :: bs, m)
      | none => tokGo d (n + 1) none rest

/-- Modelled from the spec: the Comment-Dialect Tokenizer — extracts the
comment blocks of a file and reports an unterminated block comment's opener
line, if any. -/
def tokenize (d : Dialect) (lines : List (List Char)) :
    List CommentBlock × Option Nat :=
  tokGo d 1 none lines

/-! ### SPDX Declaration Parser (spec §4.2) -/

def liTag : List Char := "SPDX-License-Identifier".toList

def fctTag : List Char := "SPDX-FileCopyrightText".toList

/-- Recognizes a tag line `…<tag> : <value>` (whitespace-tolerant around the
colon) and yields the trimmed value. -/
def tagValue (tag l : List Char) : Option (List Char) :=
  match dropThrough tag l with
  | none => none
  | some rest =>
    match trimL rest with
    | ':' :: v => some (trimC v)
    | _ => none

/-- Splits a license-expression value into tokens: runs of non-space
characters, with parentheses as standalone tokens. -/
def exprTokGo (cur : List Char) : List Char → List (List Char)
  | [] => if cur.isEmpty then [] else [cur.reverse]
  | c :: cs =>
    if isSpaceC c then
      if cur.isEmpty then exprTokGo [] cs else cur.reverse :: exprTokGo [] cs
    else if c = '(' || c = ')' then
      if cur.isEmpty then [c] :: exprTokGo [] cs
      else cur.reverse :: [c] :: exprTokGo [] cs
    else exprTokGo (c :: cur) cs

def exprTokens (l : List Char) : List (List Char) := exprTokGo [] l

def isOpTok (t : List Char) : Bool := t = "AND".toList || t = "OR".toList

def isReservedTok (t : List Char) : Bool :=
  isOpTok t || t = "WITH".toList || t = ['('] || t = [')']

/-! Modelled from the spec: the license-expression grammar of §4.2 —
`identifier (("AND"|"OR") identifier)*`, parentheses grouping
sub-expressions, every leaf identifier drawn from the known set.  `pTerm`
parses one identifier or parenthesized group, `pTail` the operator chain;
the first argument is recursion fuel. -/

mutual

def pTerm (known : List (List Char)) : Nat → List (List Char) →
    Option (List (List Char))
  | 0, _ => none
  | _ + 1, [] => none
  | f + 1, t :: ts =>
    if t = ['('] then
      match pExpr known f ts with
      | some (r :: rs) => if r = [')'] then some rs else none
      | _ => none
    else if isReservedTok t then none
    else if t ∈ known then some ts
    else none

def pExpr (known : List (List Char)) : Nat → List (List Char) →
    Option (List (List Char))
  | 0, _ => none
  | f + 1, ts =>
    match pTerm known f ts with
    | none => none
    | some rest => pTail known f rest

def pTail (known : List (List Char)) : Nat → List (List Char) →
    Option (List (List Char))
  | 0, _ => none
  | _ + 1, [] => some []
  | f + 1, t :: ts =>
    if isOpTok t then
      match pTerm known f ts with
      | none => none
      | some rest => pTail known f rest
    else some (t :: ts)

end

/-- Modelled from the spec: validity of an `SPDX-License-Identifier` value —
the expression parses under the grammar with every leaf in the known license
set, optionally followed by `WITH <exception-identifier>` with the exception
in the known exception set. -/
def validExpr (cfg : Config) (v : List Char) : Bool :=
  let ts := exprTokens v
  match pExpr cfg.known (2 * ts.length + 2) ts with
  | some [] => true
  | some [w, e] => w = "WITH".toList && e ∈ cfg.knownExc
  | _ => false

/-- Recognizes a copyright line inside a comment: an `SPDX-FileCopyrightText`
tag line, or a plain line mentioning `Copyright` (the fixture's form); the
value is recorded verbatim, requiring only non-emptiness. -/
def copyrightValue (l : List Char) : Option (List Char) :=
  match tagValue fctTag l with
  | some v => if v.isEmpty then none else some v
  | none =>
    match dropThrough "Copyright".toList l with
    | some rest => some (trimR ("Copyright".toList ++ rest))
    | none => none

def unknownSeverity (cfg : Config) : Severity :=
  if cfg.strict then Severity.error else Severity.warning

/-- Modelled from the spec: the parser loop over the numbered comment lines.
The Boolean records whether a `SPDX-License-Identifier` declaration was
already seen: the first is recorded (with its `parsed` flag, plus an
`UnknownIdentifier` diagnostic when invalid); each later duplicate is
recorded as a `ConflictingDeclaration` error diagnostic only. -/
def parseGo (cfg : Config) : Bool → List (Nat × List Char) →
    List Decl × List Diag
  | _, [] => ([], [])
  | seen, (n, l) :: rest =>
    match tagValue liTag l with
    | some v =>
      if seen then
        let (ds, gs) := parseGo cfg true rest
        (ds, { kind := DiagKind.ConflictingDeclaration,
               severity := Severity.error, line := n } :: gs)
      else
        let ok := validExpr cfg v
        let (ds, gs) := parseGo cfg true rest
        ({ tag := TagKind.licenseIdentifier, value := v, parsed := ok,
           line := n } :: ds,
         if ok then gs
         else { kind := DiagKind.UnknownIdentifier,
                severity := unknownSeverity cfg, line := n } :: gs)
    | none =>
      match copyrightValue l with
      | some v =>
        let (ds, gs) := parseGo cfg seen rest
        ({ tag := TagKind.copyright, value := v, parsed := true,
           line := n } :: ds, gs)
      | none => parseGo cfg seen rest

/-- The numbered comment lines of a file, in source order. -/
def commentText (bs : List CommentBlock) : List (Nat × List Char) :=
  bs.foldr (fun b acc => b.text ++ acc) []

/-- Modelled from the spec: the SPDX Declaration Parser — the declarations
and diagnostics extracted from a file's comment blocks. -/
def parseComments (cfg : Config) (bs : List CommentBlock) :
    List Decl × List Diag :=
  parseGo cfg false (commentText bs)

/-! ### File Classifier (spec §4.3) -/

/-- The extension of a path: the characters after the last dot. -/
def extOf (p : List Char) : List Char :=
  (p.reverse.takeWhile (fun c => c != '.')).reverse

def lookupExt : List (List Char × Dialect) → List Char → Option Dialect
  | [], _ => none
  | (k, d) :: rest, e => if k = e then some d else lookupExt rest e

/-- Modelled from the spec: the binary-content heuristic — a NUL byte among
the first 512 content characters marks the file ineligible. -/
def isBinary (content : List (List Char)) : Bool :=
  ((joinLines content).take 512).any (fun c => c.toNat == 0)

/-- Modelled from the spec: the File Classifier — `none` means ineligible.
Exclusion is applied before extension lookup; an unmapped extension is
ineligible, not an error; binary content is ineligible even with a mapped
extension. -/
def classify (cfg : Config) (p : List Char) (content : List (List Char)) :
    Option Dialect :=
  if p ∈ cfg.excludes then none
  else
    match lookupExt cfg.extMap (extOf p) with
    | none => none
    | some d => if isBinary content then none else some d

/-! ### Scan Orchestrator (spec §4.4) -/

def hasValidLI (ds : List Decl) : Bool :=
  ds.any (fun d => decide (d.tag = TagKind.licenseIdentifier) && d.parsed)

def hasErrDiag (gs : List Diag) : Bool :=
  gs.any (fun g => decide (g.severity = Severity.error))

/-- Modelled from the spec: per-file verdict assignment — `compliant` when a
valid License-Identifier declaration exists and no error diagnostic was
recorded; otherwise `missing` when there are zero declarations, else
`invalid`. -/
def assignVerdict (ds : List Decl) (gs : List Diag) : Verdict :=
  if hasValidLI ds && !hasErrDiag gs then Verdict.compliant
  else if ds.isEmpty then Verdict.missing
  else Verdict.invalid

/-- Modelled from the spec: the scan of one eligible file — tokenize, parse,
attach a `MalformedComment` error diagnostic when a block comment was
unterminated, and assign the verdict. -/
def scanFile (cfg : Config) (d : Dialect) (p : List Char)
    (content : List (List Char)) : FileScanResult :=
  let tk := tokenize d content
  let pr := parseComments cfg tk.1
  let gs :=
    (match tk.2 with
     | some n => [{ kind := DiagKind.MalformedComment,
                    severity := Severity.error, line := n }]
     | none => []) ++ pr.2
  { path := p, decls := pr.1, diags := gs, verdict := assignVerdict pr.1 gs }

/-- Classifier followed by the per-file scan: `none` for an ineligible
file, otherwise that file's result. -/
def scanOne (cfg : Config) (pc : List Char × List (List Char)) :
    Option FileScanResult :=
  (classify cfg pc.1 pc.2).map (fun d => scanFile cfg d pc.1 pc.2)

/-- Lexicographic order on character lists (by `Char` code points). -/
def lexLe : List Char → List Char → Bool
  | [], _ => true
  | _ :: _, [] => false
  | a :: as, b :: bs => if a < b then true else if b < a then false else lexLe as bs

def resLe (r s : FileScanResult) : Bool := lexLe r.path s.path

def insertBy {α : Type} (le : α → α → Bool) (a : α) : List α → List α
  | [] => [a]
  | b :: bs => if le a b then a :: b :: bs else b :: insertBy le a bs

/-- Insertion sort by a Boolean relation (the orchestrator's deterministic
lexicographic ordering of results). -/
def sortBy {α : Type} (le : α → α → Bool) : List α → List α
  | [] => []
  | a :: as => insertBy le a (sortBy le as)

/-- The per-file results of the eligible files, in lexicographic path
order. -/
def scanResults (cfg : Config) (fs : List (List Char × List (List Char))) :
    List FileScanResult :=
  sortBy resLe (fs.filterMap (scanOne cfg))

/-- Modelled from the spec: the Scan Orchestrator — classify and scan each
file independently, collect the results of the eligible files in
lexicographic path order, and apply the pass/fail policy: `pass` iff every
eligible file is `compliant`. -/
def scan (cfg : Config) (fs : List (List Char × List (List Char))) :
    ScanReport :=
  { files := scanResults cfg fs,
    overall :=
      if (scanResults cfg fs).all (fun r => decide (r.verdict = Verdict.compliant)) then
        Overall.pass
      else Overall.fail }

/-! ### Result Reporter (spec §4.5, §6, §7) -/

def tagChars : TagKind → List Char
  | TagKind.licenseIdentifier => "License-Identifier".toList
  | TagKind.copyright => "Copyright".toList

def sevChars : Severity → List Char
  | Severity.error => "error".toList
  | Severity.warning => "warning".toList

def kindChars : DiagKind → List Char
  | DiagKind.MalformedComment => "MalformedComment".toList
  | DiagKind.ConflictingDeclaration => "ConflictingDeclaration".toList
  | DiagKind.UnknownIdentifier => "UnknownIdentifier".toList

def verdictChars : Verdict → List Char
  | Verdict.compliant => "compliant".toList
  | Verdict.missing => "missing".toList
  | Verdict.invalid => "invalid".toList

def natChars (n : Nat) : List Char := (Nat.repr n).toList

def boolChars (b : Bool) : List Char :=
  if b then "true".toList else "false".toList

def serializeDecl (d : Decl) : List Char :=
  '(' :: tagChars d.tag ++ '=' :: d.value ++ ",parsed=".toList ++
    boolChars d.parsed ++ [')']

def serializeDiag (g : Diag) : List Char :=
  '(' :: kindChars g.kind ++ ',' :: sevChars g.severity ++ ',' ::
    natChars g.line ++ [')']

def serializeResult (r : FileScanResult) : List Char :=
  r.path ++ ':' :: verdictChars r.verdict ++
    " decls=".toList ++ (r.decls.map serializeDecl).flatten ++
    " diags=".toList ++ (r.diags.map serializeDiag).flatten

/-- Modelled from the spec: the structured serialization of a report, with
stable field names and order. -/
def serialize (rep : ScanReport) : List Char :=
  "overallVerdict=".toList ++
    (match rep.overall with
     | Overall.pass => "pass".toList
     | Overall.fail => "fail".toList) ++
    (rep.files.map (fun r => '\n' :: serializeResult r)).flatten

/-- Modelled from the spec: the fatal internal tool errors of §7 — an
unreadable root path or a malformed known-licenses file. -/
inductive ToolError where
  | unreadableRoot
  | malformedKnownLicenses
deriving DecidableEq

/-- Modelled from the spec: a whole invocation.  The input is the
enumeration of the file tree, which either fails with a `ToolError` or
yields the files.  Returns the process exit status and the emitted
structured report, if any: a `ToolError` exits with status 2 and no report;
otherwise the report is emitted and the status is 0 for `pass`, 1 for
`fail`. -/
def runTool (cfg : Config)
    (input : Except ToolError (List (List Char × List (List Char)))) :
    Nat × Option (List Char) :=
  match input with
  | Except.error _ => (2, none)
  | Except.ok fs =>
    let rep := scan cfg fs
    ((if rep.overall = Overall.pass then 0 else 1), some (serialize rep))

/-- The configuration the end-to-end example of spec §8 is scanned under:
lenient policy, a known-license set containing `MIT` and `Apache-2.0`, the C
dialect mapped for `.c` and `.h` files, and no exclusions. -/
def defaultConfig : Config :=
  { known := ["MIT".toList, "Apache-2.0".toList, "GPL-2.0-only".toList]
  , knownExc := ["Classpath-exception-2.0".toList]
  , strict := false
  , extMap := [("c".toList, cDialect), ("h".toList, cDialect)]
  , excludes := [] }

/-! ### Derived notions used by the statements below -/

/-- The fixture scanned alone, as in the end-to-end example of spec §8. -/
def fixtureTree : List (List Char × List (List Char)) :=
  [("examples/example.c".toList, exampleLinesC)]

/-- Whether a numbered comment line carries an `SPDX-License-Identifier`
tag. -/
def isLILine (nl : Nat × List Char) : Bool := (tagValue liTag nl.2).isSome

/-- The number of `SPDX-License-Identifier` tag lines among the comment
lines. -/
def liCount (ls : List (Nat × List Char)) : Nat := (ls.filter isLILine).length

/-- The first `SPDX-License-Identifier` tag line, if any. -/
def firstLILine : List (Nat × List Char) → Option (Nat × List Char)
  | [] => none
  | nl :: rest => if isLILine nl then some nl else firstLILine rest

/-- The License-Identifier declarations among a result's declarations. -/
def liDecls (ds : List Decl) : List Decl :=
  ds.filter (fun d => decide (d.tag = TagKind.licenseIdentifier))

/-- The copyright declarations among a result's declarations. -/
def cpDecls (ds : List Decl) : List Decl :=
  ds.filter (fun d => decide (d.tag = TagKind.copyright))

/-- The `ConflictingDeclaration` diagnostics among a result's diagnostics. -/
def conflictDiags (gs : List Diag) : List Diag :=
  gs.filter (fun g => decide (g.kind = DiagKind.ConflictingDeclaration))

/-- The `MalformedComment` diagnostics among a result's diagnostics. -/
def malformedDiags (gs : List Diag) : List Diag :=
  gs.filter (fun g => decide (g.kind = DiagKind.MalformedComment))

/-- Whether a file of the tree is eligible under the configuration. -/
def eligibleB (cfg : Config) (pc : List Char × List (List Char)) : Bool :=
  (classify cfg pc.1 pc.2).isSome

/-- A file whose block comment is never closed (spec §8's unterminated
`/*`). -/
def untermLines : List (List Char) := ["/* oops"].map String.toList

/-- The duplicate-tag file of spec §8: `MIT` first, then `Apache-2.0`,
inside one block comment. -/
def dupTagLines : List (List Char) :=
  [ "/* SPDX-License-Identifier: MIT"
  , " * SPDX-License-Identifier: Apache-2.0"
  , " */" ].map String.toList

/-- A file with three `SPDX-License-Identifier` tags. -/
def tripleTagLines : List (List Char) :=
  [ "/* SPDX-License-Identifier: MIT"
  , " * SPDX-License-Identifier: MIT"
  , " * SPDX-License-Identifier: MIT"
  , " */" ].map String.toList

/-- A compliant single-file content sample. -/
def mitLines : List (List Char) :=
  ["/* SPDX-License-Identifier: MIT", " */"].map String.toList

/-- A two-file tree, listed out of lexicographic order. -/
def wTree1 : List (List Char × List (List Char)) :=
  [("b.c".toList, untermLines), ("a.c".toList, mitLines)]

/-- The same two-file tree in the opposite enumeration order. -/
def wTree2 : List (List Char × List (List Char)) :=
  [("a.c".toList, mitLines), ("b.c".toList, untermLines)]

/-! ## Supporting lemmas -/

set_option maxRecDepth 20000

theorem lexLe_total : ∀ x y : List Char, lexLe x y = true ∨ lexLe y x = true := by
  intro x
  induction x with
  | nil => intro y; left; rfl
  | cons a as ih =>
    intro y
    cases y with
    | nil => right; rfl
    | cons b bs =>
      rcases lt_trichotomy a b with h | h | h
      · left; simp [lexLe, h]
      · subst h
        rcases ih bs with h' | h'
        · left; simp [lexLe, lt_irrefl, h']
        · right; simp [lexLe, lt_irrefl, h']
      · right; simp [lexLe, h]

theorem lexLe_trans :
    ∀ x y z : List Char, lexLe x y = true → lexLe y z = true → lexLe x z = true := by
  intro x
  induction x with
  | nil => intro y z _ _; rfl
  | cons a as ih =>
    intro y z hxy hyz
    cases y with
    | nil => simp [lexLe] at hxy
    | cons b bs =>
      cases z with
      | nil => simp [lexLe] at hyz
      | cons c cs =>
        rcases lt_trichotomy a b with hab | hab | hab
        · rcases lt_trichotomy b c with hbc | hbc | hbc
          · simp [lexLe, lt_trans hab hbc]
          · subst hbc; simp [lexLe, hab]
          · rw [lexLe, if_neg (lt_asymm hbc), if_pos hbc] at hyz; exact absurd hyz (by simp)
        · subst hab
          rcases lt_trichotomy a c with hac | hac | hac
          · simp [lexLe, hac]
          · subst hac
            rw [lexLe, if_neg (lt_irrefl a), if_neg (lt_irrefl a)] at hxy hyz ⊢
            exact ih bs cs hxy hyz
          · rw [lexLe, if_neg (lt_asymm hac), if_pos hac] at hyz; exact absurd hyz (by simp)
        · rw [lexLe, if_neg (lt_asymm hab), if_pos hab] at hxy; exact absurd hxy (by simp)

theorem lexLe_antisymm :
    ∀ x y : List Char, lexLe x y = true → lexLe y x = true → x = y := by
  intro x
  induction x with
  | nil =>
    intro y _ hyx
    cases y with
    | nil => rfl
    | cons b bs => simp [lexLe] at hyx
  | cons a as ih =>
    intro y hxy hyx
    cases y with
    | nil => simp [lexLe] at hxy
    | cons b bs =>
      rcases lt_trichotomy a b with hab | hab | hab
      · rw [lexLe, if_neg (lt_asymm hab), if_pos hab] at hyx; exact absurd hyx (by simp)
      · subst hab
        rw [lexLe, if_neg (lt_irrefl a), if_neg (lt_irrefl a)] at hxy hyx
        rw [ih bs hxy hyx]
      · rw [lexLe, if_neg (lt_asymm hab), if_pos hab] at hxy; exact absurd hxy (by simp)

theorem resLe_total : ∀ r s : FileScanResult, resLe r s = true ∨ resLe s r = true :=
  fun r s => lexLe_total r.path s.path

theorem resLe_trans :
    ∀ r s t : FileScanResult, resLe r s = true → resLe s t = true → resLe r t = true :=
  fun r s t => lexLe_trans r.path s.path t.path

theorem resLe_antisymm_path :
    ∀ r s : FileScanResult, resLe r s = true → resLe s r = true → r.path = s.path :=
  fun r s => lexLe_antisymm r.path s.path

theorem insertBy_perm {α : Type} (le : α → α → Bool) (a : α) :
    ∀ l : List α, List.Perm (insertBy le a l) (a :: l) := by
  intro l
  induction l with
  | nil => exact List.Perm.refl _
  | cons b bs ih =>
    rw [insertBy]
    by_cases h : le a b = true
    · rw [if_pos h]
    · rw [if_neg h]
      exact List.Perm.trans (List.Perm.cons b ih) (List.Perm.swap a b bs)

theorem sortBy_perm {α : Type} (le : α → α → Bool) :
    ∀ l : List α, List.Perm (sortBy le l) l := by
  intro l
  induction l with
  | nil => exact List.Perm.refl _
  | cons a as ih =>
    rw [sortBy]
    exact List.Perm.trans (insertBy_perm le a (sortBy le as)) (List.Perm.cons a ih)

theorem pairwise_insertBy {α : Type} (le : α → α → Bool)
    (htot : ∀ x y, le x y = true ∨ le y x = true)
    (htrans : ∀ x y z, le x y = true → le y z = true → le x z = true) (a : α) :
    ∀ l : List α, l.Pairwise (fun x y => le x y = true) →
      (insertBy le a l).Pairwise (fun x y => le x y = true) := by
  intro l
  induction l with
  | nil => intro _; simp [insertBy]
  | cons b bs ih =>
    intro hp
    rcases List.pairwise_cons.mp hp with ⟨hb, hbs⟩
    rw [insertBy]
    by_cases h : le a b = true
    · rw [if_pos h]
      refine List.pairwise_cons.mpr ⟨?_, hp⟩
      intro x hx
      rcases List.mem_cons.mp hx with hx | hx
      · exact hx ▸ h
      · exact htrans a b x h (hb x hx)
    · rw [if_neg h]
      have hba : le b a = true := by
        rcases htot a b with h' | h'
        · exact absurd h' h
        · exact h'
      refine List.pairwise_cons.mpr ⟨?_, ih hbs⟩
      intro x hx
      have hx2 := (insertBy_perm le a bs).mem_iff.mp hx
      rcases List.mem_cons.mp hx2 with hx3 | hx3
      · exact hx3 ▸ hba
      · exact hb x hx3

theorem pairwise_sortBy {α : Type} (le : α → α → Bool)
    (htot : ∀ x y, le x y = true ∨ le y x = true)
    (htrans : ∀ x y z, le x y = true → le y z = true → le x z = true) :
    ∀ l : List α, (sortBy le l).Pairwise (fun x y => le x y = true) := by
  intro l
  induction l with
  | nil => simp [sortBy]
  | cons a as ih =>
    rw [sortBy]
    exact pairwise_insertBy le htot htrans a (sortBy le as) ih

theorem sorted_perm_eq :
    ∀ l₁ l₂ : List FileScanResult,
      l₁.Pairwise (fun x y => resLe x y = true) →
      l₂.Pairwise (fun x y => resLe x y = true) →
      List.Perm l₁ l₂ → (l₁.map FileScanResult.path).Nodup → l₁ = l₂ := by
  intro l₁
  induction l₁ with
  | nil =>
    intro l₂ _ _ hp _
    exact (hp.symm.eq_nil).symm
  | cons a t₁ ih =>
    intro l₂ h₁ h₂ hp hnd
    cases l₂ with
    | nil => cases hp.eq_nil
    | cons b t₂ =>
      by_cases hab : a = b
      · subst hab
        have ht : List.Perm t₁ t₂ := hp.cons_inv
        rw [List.map_cons, List.nodup_cons] at hnd
        rw [ih t₂ (List.pairwise_cons.mp h₁).2 (List.pairwise_cons.mp h₂).2 ht hnd.2]
      · exfalso
        have ha2 : a ∈ b :: t₂ := hp.mem_iff.mp (List.mem_cons_self a t₁)
        have ha3 : a ∈ t₂ := by
          rcases List.mem_cons.mp ha2 with h | h
          · exact absurd h hab
          · exact h
        have hb2 : b ∈ a :: t₁ := hp.mem_iff.mpr (List.mem_cons_self b t₂)
        have hb3 : b ∈ t₁ := by
          rcases List.mem_cons.mp hb2 with h | h
          · exact absurd h.symm hab
          · exact h
        have hre : resLe a b = true := (List.pairwise_cons.mp h₁).1 b hb3
        have hre' : resLe b a = true := (List.pairwise_cons.mp h₂).1 a ha3
        have hpe : a.path = b.path := resLe_antisymm_path a b hre hre'
        rw [List.map_cons, List.nodup_cons] at hnd
        exact hnd.1 (List.mem_map.mpr ⟨b, hb3, hpe.symm⟩)

theorem map_path_filterMap (cfg : Config) :
    ∀ fs : List (List Char × List (List Char)),
      (fs.filterMap (scanOne cfg)).map FileScanResult.path
      = (fs.filter (eligibleB cfg)).map Prod.fst := by
  intro fs
  induction fs with
  | nil => rfl
  | cons pc rest ih =>
    cases hc : classify cfg pc.1 pc.2 with
    | none =>
      have h1 : scanOne cfg pc = none := by rw [scanOne, hc]; rfl
      have h2 : eligibleB cfg pc = false := by rw [eligibleB, hc]; rfl
      simp [List.filterMap_cons, h1, List.filter_cons, h2, ih]
    | some d =>
      have h1 : scanOne cfg pc = some (scanFile cfg d pc.1 pc.2) := by rw [scanOne, hc]; rfl
      have h2 : eligibleB cfg pc = true := by rw [eligibleB, hc]; rfl
      have h3 : (scanFile cfg d pc.1 pc.2).path = pc.1 := rfl
      simp [List.filterMap_cons, h1, List.filter_cons, h2, h3, ih]

theorem filterMap_scanOne_filter (cfg : Config) :
    ∀ fs : List (List Char × List (List Char)),
      (fs.filter (eligibleB cfg)).filterMap (scanOne cfg)
      = fs.filterMap (scanOne cfg) := by
  intro fs
  induction fs with
  | nil => rfl
  | cons pc rest ih =>
    cases hc : classify cfg pc.1 pc.2 with
    | none =>
      have h1 : scanOne cfg pc = none := by rw [scanOne, hc]; rfl
      have h2 : eligibleB cfg pc = false := by rw [eligibleB, hc]; rfl
      simp [List.filter_cons, h2, List.filterMap_cons, h1, ih]
    | some d =>
      have h1 : scanOne cfg pc = some (scanFile cfg d pc.1 pc.2) := by rw [scanOne, hc]; rfl
      have h2 : eligibleB cfg pc = true := by rw [eligibleB, hc]; rfl
      simp [List.filter_cons, h2, List.filterMap_cons, h1, ih]

theorem mem_scan_files (cfg : Config) (fs : List (List Char × List (List Char)))
    (r : FileScanResult) :
    r ∈ (scan cfg fs).files ↔ ∃ pc, pc ∈ fs ∧ scanOne cfg pc = some r := by
  show r ∈ scanResults cfg fs ↔ _
  rw [scanResults]
  exact Iff.trans (sortBy_perm resLe _).mem_iff List.mem_filterMap

theorem length_scan_files (cfg : Config) (fs : List (List Char × List (List Char))) :
    (scan cfg fs).files.length = (fs.filter (eligibleB cfg)).length := by
  show (scanResults cfg fs).length = _
  rw [scanResults, (sortBy_perm resLe _).length_eq]
  have h := congrArg List.length (map_path_filterMap cfg fs)
  rwa [List.length_map, List.length_map] at h

theorem nodup_paths_filterMap (cfg : Config)
    (fs : List (List Char × List (List Char))) (h : (fs.map Prod.fst).Nodup) :
    ((fs.filterMap (scanOne cfg)).map FileScanResult.path).Nodup := by
  rw [map_path_filterMap]
  exact h.sublist ((List.filter_sublist fs).map Prod.fst)

theorem scan_overall_pass_iff (cfg : Config)
    (fs : List (List Char × List (List Char))) :
    (scan cfg fs).overall = Overall.pass ↔
      ∀ r ∈ (scan cfg fs).files, r.verdict = Verdict.compliant := by
  show (if (scanResults cfg fs).all _ then Overall.pass else Overall.fail) = Overall.pass ↔
    ∀ r ∈ scanResults cfg fs, r.verdict = Verdict.compliant
  by_cases h : (scanResults cfg fs).all (fun r => decide (r.verdict = Verdict.compliant)) = true
  · rw [if_pos h]
    constructor
    · intro _ r hr
      exact of_decide_eq_true (List.all_eq_true.mp h r hr)
    · intro _; rfl
  · rw [if_neg h]
    constructor
    · intro hcontra; cases hcontra
    · intro hall
      exact absurd (List.all_eq_true.mpr fun r hr => decide_eq_true (hall r hr)) h

theorem assignVerdict_of_err (ds : List Decl) (gs : List Diag)
    (h : hasErrDiag gs = true) : assignVerdict ds gs ≠ Verdict.compliant := by
  rw [assignVerdict, h]
  by_cases he : ds.isEmpty <;> simp [he]

theorem scanFile_verdict (cfg : Config) (d : Dialect) (p : List Char)
    (content : List (List Char)) :
    (scanFile cfg d p content).verdict
      = assignVerdict (scanFile cfg d p content).decls (scanFile cfg d p content).diags := rfl

theorem liCount_cons_pos {nl : Nat × List Char} {rest : List (Nat × List Char)}
    (h : isLILine nl = true) : liCount (nl :: rest) = liCount rest + 1 := by
  simp [liCount, List.filter_cons, h]

theorem liCount_cons_neg {nl : Nat × List Char} {rest : List (Nat × List Char)}
    (h : isLILine nl = false) : liCount (nl :: rest) = liCount rest := by
  simp [liCount, List.filter_cons, h]

theorem parseGo_true_conflict_length (cfg : Config) : ∀ ls,
    (conflictDiags (parseGo cfg true ls).2).length = liCount ls := by
  intro ls
  induction ls with
  | nil => simp [parseGo, conflictDiags, liCount]
  | cons nl rest ih =>
    obtain ⟨n, l⟩ := nl
    rcases hrec : parseGo cfg true rest with ⟨ds, gs⟩
    rw [hrec] at ih
    cases hv : tagValue liTag l with
    | some v =>
      have hli : isLILine (n, l) = true := by simp [isLILine, hv]
      have hstep : parseGo cfg true ((n, l) :: rest)
          = (ds, { kind := DiagKind.ConflictingDeclaration,
                   severity := Severity.error, line := n } :: gs) := by
        simp only [parseGo, hv, hrec, if_true]
      rw [hstep, liCount_cons_pos hli]
      simp [conflictDiags, List.filter_cons] at ih ⊢
      omega
    | none =>
      have hli : isLILine (n, l) = false := by simp [isLILine, hv]
      rw [liCount_cons_neg hli]
      cases hcp : copyrightValue l with
      | some v =>
        have hstep : parseGo cfg true ((n, l) :: rest)
            = ({ tag := TagKind.copyright, value := v, parsed := true,
                 line := n } :: ds, gs) := by
          simp only [parseGo, hv, hcp, hrec]
        rw [hstep]
        exact ih
      | none =>
        have hstep : parseGo cfg true ((n, l) :: rest) = parseGo cfg true rest := by
          simp only [parseGo, hv, hcp]
        rw [hstep, hrec]
        exact ih

theorem parseGo_true_liDecls (cfg : Config) : ∀ ls,
    liDecls (parseGo cfg true ls).1 = [] := by
  intro ls
  induction ls with
  | nil => simp [parseGo, liDecls]
  | cons nl rest ih =>
    obtain ⟨n, l⟩ := nl
    rcases hrec : parseGo cfg true rest with ⟨ds, gs⟩
    rw [hrec] at ih
    cases hv : tagValue liTag l with
    | some v =>
      have hstep : parseGo cfg true ((n, l) :: rest)
          = (ds, { kind := DiagKind.ConflictingDeclaration,
                   severity := Severity.error, line := n } :: gs) := by
        simp only [parseGo, hv, hrec, if_true]
      rw [hstep]
      exact ih
    | none =>
      cases hcp : copyrightValue l with
      | some v =>
        have hstep : parseGo cfg true ((n, l) :: rest)
            = ({ tag := TagKind.copyright, value := v, parsed := true,
                 line := n } :: ds, gs) := by
          simp only [parseGo, hv, hcp, hrec]
        rw [hstep]
        simpa [liDecls, List.filter_cons] using ih
      | none =>
        have hstep : parseGo cfg true ((n, l) :: rest) = parseGo cfg true rest := by
          simp only [parseGo, hv, hcp]
        rw [hstep, hrec]
        exact ih

theorem parseGo_conflict_error (cfg : Config) : ∀ (b : Bool) ls g,
    g ∈ (parseGo cfg b ls).2 → g.kind = DiagKind.ConflictingDeclaration →
    g.severity = Severity.error := by
  intro b ls
  induction ls generalizing b with
  | nil => intro g hg _; simp [parseGo] at hg
  | cons nl rest ih =>
    obtain ⟨n, l⟩ := nl
    intro g hg hk
    cases hv : tagValue liTag l with
    | some v =>
      cases b with
      | true =>
        rcases hrec : parseGo cfg true rest with ⟨ds, gs⟩
        have hstep : parseGo cfg true ((n, l) :: rest)
            = (ds, { kind := DiagKind.ConflictingDeclaration,
                     severity := Severity.error, line := n } :: gs) := by
          simp only [parseGo, hv, hrec, if_true]
        rw [hstep] at hg
        rcases List.mem_cons.mp hg with hg' | hg'
        · rw [hg']
        · exact ih true g (by rw [hrec]; exact hg') hk
      | false =>
        rcases hrec : parseGo cfg true rest with ⟨ds, gs⟩
        by_cases hok : validExpr cfg v = true
        · have hstep : parseGo cfg false ((n, l) :: rest)
              = ({ tag := TagKind.licenseIdentifier, value := v,
                   parsed := validExpr cfg v, line := n } :: ds, gs) := by
            simp only [parseGo, hv, hrec, hok, if_true, Bool.false_eq_true, if_false]
          rw [hstep] at hg
          exact ih true g (by rw [hrec]; exact hg) hk
        · have hstep : parseGo cfg false ((n, l) :: rest)
              = ({ tag := TagKind.licenseIdentifier, value := v,
                   parsed := validExpr cfg v, line := n } :: ds,
                 { kind := DiagKind.UnknownIdentifier,
                   severity := unknownSeverity cfg, line := n } :: gs) := by
            simp only [parseGo, hv, hrec, hok, Bool.false_eq_true, if_false]
          rw [hstep] at hg
          rcases List.mem_cons.mp hg with hg' | hg'
          · rw [hg'] at hk; cases hk
          · exact ih true g (by rw [hrec]; exact hg') hk
    | none =>
      cases hcp : copyrightValue l with
      | some v =>
        rcases hrec : parseGo cfg b rest with ⟨ds, gs⟩
        have hstep : parseGo cfg b ((n, l) :: rest)
            = ({ tag := TagKind.copyright, value := v, parsed := true,
                 line := n } :: ds, gs) := by
          simp only [parseGo, hv, hcp, hrec]
        rw [hstep] at hg
        exact ih b g (by rw [hrec]; exact hg) hk
      | none =>
        have hstep : parseGo cfg b ((n, l) :: rest) = parseGo cfg b rest := by
          simp only [parseGo, hv, hcp]
        rw [hstep] at hg
        exact ih b g hg hk

theorem firstLILine_of_pos : ∀ ls, 1 ≤ liCount ls →
    ∃ n l v, firstLILine ls = some (n, l) ∧ tagValue liTag l = some v := by
  intro ls
  induction ls with
  | nil => intro h; simp [liCount] at h
  | cons nl rest ih =>
    obtain ⟨m, l'⟩ := nl
    intro h
    cases hv : tagValue liTag l' with
    | some w =>
      have hli : isLILine (m, l') = true := by simp [isLILine, hv]
      exact ⟨m, l', w, by rw [firstLILine, if_pos hli], hv⟩
    | none =>
      have hli : isLILine (m, l') = false := by simp [isLILine, hv]
      have h' : 1 ≤ liCount rest := by rwa [liCount_cons_neg hli] at h
      obtain ⟨n, l, v, h1, h2⟩ := ih h'
      refine ⟨n, l, v, ?_, h2⟩
      rw [firstLILine, if_neg (by simp [hli]), h1]

theorem parseGo_false_li (cfg : Config) : ∀ ls n l v,
    firstLILine ls = some (n, l) → tagValue liTag l = some v →
    liDecls (parseGo cfg false ls).1
        = [{ tag := TagKind.licenseIdentifier, value := v,
             parsed := validExpr cfg v, line := n }] ∧
    (conflictDiags (parseGo cfg false ls).2).length = liCount ls - 1 := by
  intro ls
  induction ls with
  | nil => intro n l v h _; simp [firstLILine] at h
  | cons nl rest ih =>
    obtain ⟨m, l'⟩ := nl
    intro n l v hfirst hv
    rcases hrecT : parseGo cfg true rest with ⟨ds, gs⟩
    cases hv' : tagValue liTag l' with
    | some w =>
      have hli : isLILine (m, l') = true := by simp [isLILine, hv']
      rw [firstLILine, if_pos hli] at hfirst
      have hm1 : m = n := congrArg Prod.fst (Option.some.inj hfirst)
      have hm2 : l' = l := congrArg Prod.snd (Option.some.inj hfirst)
      have hw : w = v := by
        rw [hm2] at hv'
        exact Option.some.inj (hv'.symm.trans hv)
      rw [← hm1, ← hw]
      have hstep : parseGo cfg false ((m, l') :: rest)
          = ({ tag := TagKind.licenseIdentifier, value := w,
               parsed := validExpr cfg w, line := m } :: ds,
             if validExpr cfg w then gs
             else { kind := DiagKind.UnknownIdentifier,
                    severity := unknownSeverity cfg, line := m } :: gs) := by
        simp only [parseGo, hv', hrecT, Bool.false_eq_true, if_false]
      rw [hstep]
      constructor
      · have h1 : liDecls ds = [] := by
          have hh := parseGo_true_liDecls cfg rest
          rwa [hrecT] at hh
        rw [liDecls, List.filter_cons]
        rw [liDecls] at h1
        simp [h1]
      · have h2 : (conflictDiags gs).length = liCount rest := by
          have hh := parseGo_true_conflict_length cfg rest
          rwa [hrecT] at hh
        rw [liCount_cons_pos hli]
        by_cases hok : validExpr cfg w = true
        · rw [if_pos hok, h2]; omega
        · rw [if_neg hok, conflictDiags, List.filter_cons]
          rw [conflictDiags] at h2
          simp [h2]
    | none =>
      have hli : isLILine (m, l') = false := by simp [isLILine, hv']
      rw [firstLILine, if_neg (by simp [hli])] at hfirst
      rw [liCount_cons_neg hli]
      rcases hrecF : parseGo cfg false rest with ⟨ds', gs'⟩
      have ihr := ih n l v hfirst hv
      rw [hrecF] at ihr
      cases hcp : copyrightValue l' with
      | some w =>
        have hstep : parseGo cfg false ((m, l') :: rest)
            = ({ tag := TagKind.copyright, value := w, parsed := true,
                 line := m } :: ds', gs') := by
          simp only [parseGo, hv', hcp, hrecF]
        rw [hstep]
        exact ⟨by simpa [liDecls, List.filter_cons] using ihr.1, ihr.2⟩
      | none =>
        have hstep : parseGo cfg false ((m, l') :: rest) = parseGo cfg false rest := by
          simp only [parseGo, hv', hcp]
        rw [hstep, hrecF]
        exact ihr

theorem scanFile_decls (cfg : Config) (d : Dialect) (p : List Char)
    (content : List (List Char)) :
    (scanFile cfg d p content).decls
      = (parseGo cfg false (commentText (tokenize d content).1)).1 := rfl

theorem scanFile_diags_eq (cfg : Config) (d : Dialect) (p : List Char)
    (content : List (List Char)) :
    (scanFile cfg d p content).diags
      = (match (tokenize d content).2 with
         | some n => [{ kind := DiagKind.MalformedComment,
                        severity := Severity.error, line := n }]
         | none => []) ++ (parseComments cfg (tokenize d content).1).2 := rfl

theorem scanFile_conflictDiags (cfg : Config) (d : Dialect) (p : List Char)
    (content : List (List Char)) :
    conflictDiags (scanFile cfg d p content).diags
      = conflictDiags (parseGo cfg false (commentText (tokenize d content).1)).2 := by
  rw [scanFile_diags_eq]
  cases hm : (tokenize d content).2 with
  | none => simp [conflictDiags, parseComments]
  | some k => simp [conflictDiags, List.filter_append, List.filter_cons, parseComments]

/-! ## The claims -/

/-- C1: scanning the fixture alone yields overall verdict `pass`, one file
result with verdict `compliant`, exactly one parsed License-Identifier
declaration `MIT` (line 1) and exactly one recorded copyright declaration
(line 2), and the opening `/* */` block comment alone already yields exactly
those two declarations and nothing else. -/
theorem spdx_C1 :
    (scan defaultConfig fixtureTree).overall = Overall.pass ∧
    (scan defaultConfig fixtureTree).files.map FileScanResult.verdict
      = [Verdict.compliant] ∧
    (scan defaultConfig fixtureTree).files.map (fun r => liDecls r.decls)
      = [[{ tag := TagKind.licenseIdentifier, value := "MIT".toList,
            parsed := true, line := 1 }]] ∧
    (scan defaultConfig fixtureTree).files.map (fun r => cpDecls r.decls)
      = [[{ tag := TagKind.copyright,
            value := "Copyright (c) 2023 Example Corporation".toList,
            parsed := true, line := 2 }]] ∧
    parseComments defaultConfig ((tokenize cDialect exampleLinesC).1.take 1)
      = ([{ tag := TagKind.licenseIdentifier, value := "MIT".toList,
            parsed := true, line := 1 },
          { tag := TagKind.copyright,
            value := "Copyright (c) 2023 Example Corporation".toList,
            parsed := true, line := 2 }], []) := by
  decide

/-- C2: the repository consists of exactly one source file,
`src/examples/example.c`, and its content holds exactly 27 newline
characters — 27 lines in the POSIX (`wc -l`) sense, the final `}` line being
unterminated. -/
theorem spdx_C2 :
    repoFiles.length = 1 ∧
    repoFiles.map Prod.fst = ["src/examples/example.c"] ∧
    newlineCount exampleRaw = 27 := by
  decide

/-- C3: executing the fixture's `main` from any world state only appends the
fixed three output lines to standard output and returns `EXIT_SUCCESS`;
standard input, the environment and all external state are untouched. -/
theorem spdx_C3 : ∀ w : World,
    cMain w = ({ w with stdout := w.stdout ++ exampleOutput }, exitSuccess) := by
  intro w
  cases w
  simp [cMain, printLine, exampleOutput]

/-- C9: `main` returns `EXIT_SUCCESS` (which is 0) from every starting
world; no input or environment condition can change the returned value. -/
theorem spdx_C9 : ∀ w : World, (cMain w).2 = exitSuccess ∧ exitSuccess = 0 :=
  fun _ => ⟨rfl, rfl⟩

/-- C10: every `/*` opener in the fixture has a matching `*/` closer before
end-of-file — the tokenizer reports no unterminated block — and the scan of
the fixture records no `MalformedComment` diagnostic. -/
theorem spdx_C10 :
    (tokenize cDialect exampleLinesC).2 = none ∧
    malformedDiags (scanFile defaultConfig cDialect
      "examples/example.c".toList exampleLinesC).diags = [] := by
  decide

/-- C4 counterexample: a file whose only content is an unterminated `/*`
has zero declarations and a `MalformedComment` error diagnostic; its verdict
is `missing`, not `invalid`, although the claim's clause "invalid iff
declarations exist but none are valid **or an error diagnostic exists**"
demands `invalid` here, while its clause "missing iff the file is eligible
and has zero declarations" simultaneously demands `missing`.  The two
biconditionals cannot both hold at this input. -/
theorem spdx_C4_counterexample :
    hasErrDiag (scanFile defaultConfig cDialect "u.c".toList untermLines).diags
      = true ∧
    (scanFile defaultConfig cDialect "u.c".toList untermLines).decls = [] ∧
    (scanFile defaultConfig cDialect "u.c".toList untermLines).verdict
      = Verdict.missing ∧
    (scanFile defaultConfig cDialect "u.c".toList untermLines).verdict
      ≠ Verdict.invalid := by
  decide

/-- C4 (amended): per-file verdicts — `compliant` iff a valid
License-Identifier declaration exists and no error diagnostic was recorded;
`missing` iff the file has zero declarations; `invalid` iff declarations
exist and (none is a valid License-Identifier or an error diagnostic
exists).  Overall: `pass` iff every eligible file's result is `compliant`,
and ineligible files never affect the report. -/
theorem spdx_C4 : ∀ (cfg : Config) (ds : List Decl) (gs : List Diag)
    (fs : List (List Char × List (List Char))),
    (assignVerdict ds gs = Verdict.compliant ↔
      (hasValidLI ds = true ∧ hasErrDiag gs = false)) ∧
    (assignVerdict ds gs = Verdict.missing ↔ ds = []) ∧
    (assignVerdict ds gs = Verdict.invalid ↔
      (ds ≠ [] ∧ (hasValidLI ds = false ∨ hasErrDiag gs = true))) ∧
    ((scan cfg fs).overall = Overall.pass ↔
      ∀ pc ∈ fs, ∀ r, scanOne cfg pc = some r → r.verdict = Verdict.compliant) ∧
    scan cfg (fs.filter (eligibleB cfg)) = scan cfg fs := by
  intro cfg ds gs fs
  refine ⟨?_, ?_, ?_, ?_, ?_⟩
  · constructor
    · intro h
      by_cases hcond : (hasValidLI ds && !hasErrDiag gs) = true
      · simp only [Bool.and_eq_true, Bool.not_eq_true'] at hcond
        exact hcond
      · rw [assignVerdict, if_neg hcond] at h
        by_cases hd : ds.isEmpty = true
        · rw [if_pos hd] at h; simp at h
        · rw [if_neg hd] at h; simp at h
    · rintro ⟨h1, h2⟩
      rw [assignVerdict, if_pos (by rw [h1, h2]; rfl)]
  · constructor
    · intro h
      by_cases hcond : (hasValidLI ds && !hasErrDiag gs) = true
      · rw [assignVerdict, if_pos hcond] at h; simp at h
      · rw [assignVerdict, if_neg hcond] at h
        by_cases hd : ds.isEmpty = true
        · cases ds with
          | nil => rfl
          | cons a as => simp at hd
        · rw [if_neg hd] at h; simp at h
    · intro h
      subst h
      rfl
  · constructor
    · intro h
      by_cases hcond : (hasValidLI ds && !hasErrDiag gs) = true
      · rw [assignVerdict, if_pos hcond] at h; simp at h
      · by_cases hd : ds.isEmpty = true
        · rw [assignVerdict, if_neg hcond, if_pos hd] at h; simp at h
        · refine ⟨?_, ?_⟩
          · intro hnil
            subst hnil
            exact hd rfl
          · cases hv : hasValidLI ds with
            | false => exact Or.inl rfl
            | true =>
              cases he : hasErrDiag gs with
              | true => exact Or.inr rfl
              | false =>
                rw [hv, he] at hcond
                exact absurd rfl hcond
    · rintro ⟨hne, hor⟩
      have hcond : (hasValidLI ds && !hasErrDiag gs) = false := by
        rcases hor with h' | h' <;> rw [h'] <;> simp
      have hd : ds.isEmpty = false := by
        cases ds with
        | nil => exact absurd rfl hne
        | cons a as => rfl
      rw [assignVerdict, if_neg (by simp [hcond]), if_neg (by simp [hd])]
  · rw [scan_overall_pass_iff]
    constructor
    · intro h pc hpc r hr
      exact h r ((mem_scan_files cfg fs r).mpr ⟨pc, hpc, hr⟩)
    · intro h r hrmem
      obtain ⟨pc, hpc, hsc⟩ := (mem_scan_files cfg fs r).mp hrmem
      exact h pc hpc r hsc
  · simp only [scan, scanResults, filterMap_scanOne_filter]

/-- C5: scanning is deterministic — re-serializing the same tree gives the
identical bytes, the report lists files in lexicographic path order, and the
report does not depend on the enumeration order of the tree: any
re-enumeration (permutation) of a duplicate-free tree yields the identical
report. -/
theorem spdx_C5 : ∀ (cfg : Config) (fs fs' : List (List Char × List (List Char))),
    List.Perm fs fs' → (fs.map Prod.fst).Nodup →
    serialize (scan cfg fs) = serialize (scan cfg fs) ∧
    (scan cfg fs).files.Pairwise (fun a b => resLe a b = true) ∧
    scan cfg fs = scan cfg fs' := by
  intro cfg fs fs' hperm hnd
  refine ⟨rfl, ?_, ?_⟩
  · exact pairwise_sortBy resLe resLe_total resLe_trans _
  · have hpm : List.Perm (fs.filterMap (scanOne cfg)) (fs'.filterMap (scanOne cfg)) :=
      hperm.filterMap _
    have h1 : List.Perm (scanResults cfg fs) (scanResults cfg fs') := by
      rw [scanResults, scanResults]
      exact ((sortBy_perm resLe _).trans hpm).trans (sortBy_perm resLe _).symm
    have hnd1 : ((scanResults cfg fs).map FileScanResult.path).Nodup := by
      rw [scanResults]
      exact (((sortBy_perm resLe _).map _).nodup_iff).mpr
        (nodup_paths_filterMap cfg fs hnd)
    have heq : scanResults cfg fs = scanResults cfg fs' := by
      apply sorted_perm_eq
      · exact pairwise_sortBy resLe resLe_total resLe_trans _
      · exact pairwise_sortBy resLe resLe_total resLe_trans _
      · exact h1
      · exact hnd1
    simp only [scan, heq]

/-- C5 witness: the two-file tree scanned in either enumeration order gives
the identical report. -/
theorem spdx_C5_witness :
    List.Perm wTree1 wTree2 ∧ (wTree1.map Prod.fst).Nodup ∧
    scan defaultConfig wTree1 = scan defaultConfig wTree2 := by
  have h := spdx_C5 defaultConfig wTree1 wTree2 (List.Perm.swap _ _ _) (by decide)
  exact ⟨List.Perm.swap _ _ _, by decide, h.2.2⟩

/-- C6 counterexample: a file with three `SPDX-License-Identifier` tags —
more than one, as in the claim's hypothesis — receives two
`ConflictingDeclaration` diagnostics, not exactly one: the parser records
one such diagnostic per later duplicate, not one per file. -/
theorem spdx_C6_counterexample :
    2 ≤ liCount (commentText (tokenize cDialect tripleTagLines).1) ∧
    (conflictDiags (scanFile defaultConfig cDialect
      "t.c".toList tripleTagLines).diags).length = 2 := by
  decide

/-- C6 (amended): for every file with more than one
`SPDX-License-Identifier` tag, the parser keeps the first declaration as the
result's only License-Identifier declaration and emits one
`ConflictingDeclaration` error diagnostic per later duplicate (hence exactly
one when there are exactly two tags); in particular the `MIT` then
`Apache-2.0` file retains `MIT` and gets exactly one such diagnostic. -/
theorem spdx_C6 : ∀ (cfg : Config) (d : Dialect) (p : List Char)
    (content : List (List Char)),
    2 ≤ liCount (commentText (tokenize d content).1) →
    (∃ n l v, firstLILine (commentText (tokenize d content).1) = some (n, l) ∧
        tagValue liTag l = some v ∧
        liDecls (scanFile cfg d p content).decls
          = [{ tag := TagKind.licenseIdentifier, value := v,
               parsed := validExpr cfg v, line := n }]) ∧
    (conflictDiags (scanFile cfg d p content).diags).length
      = liCount (commentText (tokenize d content).1) - 1 ∧
    (∀ g ∈ conflictDiags (scanFile cfg d p content).diags,
        g.severity = Severity.error) ∧
    liDecls (scanFile defaultConfig cDialect "d.c".toList dupTagLines).decls
      = [{ tag := TagKind.licenseIdentifier, value := "MIT".toList,
           parsed := true, line := 1 }] ∧
    (conflictDiags (scanFile defaultConfig cDialect
      "d.c".toList dupTagLines).diags).length = 1 := by
  intro cfg d p content h2
  obtain ⟨n, l, v, hfirst, hv⟩ :=
    firstLILine_of_pos _ (le_trans (by omega) h2)
  have hmain := parseGo_false_li cfg _ n l v hfirst hv
  refine ⟨⟨n, l, v, hfirst, hv, ?_⟩, ?_, ?_, by decide, by decide⟩
  · rw [scanFile_decls]
    exact hmain.1
  · rw [scanFile_conflictDiags]
    exact hmain.2
  · intro g hg
    rw [scanFile_conflictDiags, conflictDiags] at hg
    have hg2 := List.mem_filter.mp hg
    exact parseGo_conflict_error cfg false _ g hg2.1 (of_decide_eq_true hg2.2)

/-- C6 witness: the duplicate-tag file of spec §8 satisfies the amended
claim's hypothesis and conclusion. -/
theorem spdx_C6_witness :
    2 ≤ liCount (commentText (tokenize cDialect dupTagLines).1) ∧
    (conflictDiags (scanFile defaultConfig cDialect
      "d.c".toList dupTagLines).diags).length
      = liCount (commentText (tokenize cDialect dupTagLines).1) - 1 := by
  refine ⟨by decide, ?_⟩
  exact (spdx_C6 defaultConfig cDialect "d.c".toList dupTagLines (by decide)).2.1

/-- C7: an unterminated block comment yields a `MalformedComment` error
diagnostic on that file's result (not an abort), the file's verdict is never
`compliant`, and every other file of any run still receives exactly its own
standalone result. -/
theorem spdx_C7 : ∀ (cfg : Config) (d : Dialect) (p : List Char)
    (content : List (List Char)) (n : Nat),
    (tokenize d content).2 = some n →
    (∃ g ∈ (scanFile cfg d p content).diags,
        g.kind = DiagKind.MalformedComment ∧ g.severity = Severity.error) ∧
    (scanFile cfg d p content).verdict ≠ Verdict.compliant ∧
    ∀ fs pc r, pc ∈ fs → scanOne cfg pc = some r → r ∈ (scan cfg fs).files := by
  intro cfg d p content n hmal
  have hd : (scanFile cfg d p content).diags
      = { kind := DiagKind.MalformedComment, severity := Severity.error, line := n }
        :: (parseComments cfg (tokenize d content).1).2 := by
    rw [scanFile_diags_eq, hmal]
    rfl
  have herr : hasErrDiag (scanFile cfg d p content).diags = true := by
    rw [hd]
    simp [hasErrDiag]
  refine ⟨⟨_, by rw [hd]; exact List.mem_cons_self _ _, rfl, rfl⟩, ?_, ?_⟩
  · rw [scanFile_verdict]
    exact assignVerdict_of_err _ _ herr
  · intro fs pc r hpc hr
    exact (mem_scan_files cfg fs r).mpr ⟨pc, hpc, hr⟩

/-- C7 witness: the unterminated one-line file triggers the theorem; its
verdict is not `compliant`. -/
theorem spdx_C7_witness :
    (tokenize cDialect untermLines).2 = some 1 ∧
    (scanFile defaultConfig cDialect "u.c".toList untermLines).verdict
      ≠ Verdict.compliant := by
  refine ⟨by decide, ?_⟩
  exact (spdx_C7 defaultConfig cDialect "u.c".toList untermLines 1 (by decide)).2.1

/-- C8: the exit status is 0 iff the overall verdict is `pass`, 1 iff it is
`fail`, and 2 iff a `ToolError` occurred; a `ToolError` emits no report,
every ordinary run emits exactly the serialized report, and every eligible
file of a run receives its own result (per-file conditions never abort the
scan). -/
theorem spdx_C8 : ∀ cfg : Config,
    (∀ e, runTool cfg (Except.error e) = (2, none)) ∧
    (∀ fs, (runTool cfg (Except.ok fs)).1
        = (if (scan cfg fs).overall = Overall.pass then 0 else 1) ∧
      (runTool cfg (Except.ok fs)).2 = some (serialize (scan cfg fs))) ∧
    (∀ input, (runTool cfg input).1 = 0 ↔
      ∃ fs, input = Except.ok fs ∧ (scan cfg fs).overall = Overall.pass) ∧
    (∀ input, (runTool cfg input).1 = 1 ↔
      ∃ fs, input = Except.ok fs ∧ (scan cfg fs).overall = Overall.fail) ∧
    (∀ input, (runTool cfg input).1 = 2 ↔ ∃ e, input = Except.error e) ∧
    (∀ fs, (scan cfg fs).files.length = (fs.filter (eligibleB cfg)).length) := by
  intro cfg
  refine ⟨fun _ => rfl, fun _ => ⟨rfl, rfl⟩, ?_, ?_, ?_, length_scan_files cfg⟩
  · intro input
    cases input with
    | error e =>
      constructor
      · intro h
        simp [runTool] at h
      · rintro ⟨fs, heq, _⟩
        cases heq
    | ok fs =>
      constructor
      · intro h
        refine ⟨fs, rfl, ?_⟩
        by_cases hov : (scan cfg fs).overall = Overall.pass
        · exact hov
        · simp [runTool, hov] at h
      · rintro ⟨fs', heq, hov⟩
        have hfs : fs = fs' := Except.ok.inj heq
        subst hfs
        simp [runTool, hov]
  · intro input
    cases input with
    | error e =>
      constructor
      · intro h
        simp [runTool] at h
      · rintro ⟨fs, heq, _⟩
        cases heq
    | ok fs =>
      constructor
      · intro h
        refine ⟨fs, rfl, ?_⟩
        cases hov : (scan cfg fs).overall with
        | pass => simp [runTool, hov] at h
        | fail => rfl
      · rintro ⟨fs', heq, hov⟩
        have hfs : fs = fs' := Except.ok.inj heq
        subst hfs
        have hne : ¬(scan cfg fs).overall = Overall.pass := by
          rw [hov]
          intro hcontra
          cases hcontra
        simp [runTool, hne]
  · intro input
    cases input with
    | error e =>
      constructor
      · intro _
        exact ⟨e, rfl⟩
      · intro _
        rfl
    | ok fs =>
      constructor
      · intro h
        by_cases hov : (scan cfg fs).overall = Overall.pass
        · simp [runTool, hov] at h
        · simp [runTool, hov] at h
      · rintro ⟨e, heq⟩
        cases heq

end Spdx
